import Mathlib

/-!
Verification of codecfs (`main.go`) against its specification.

The Go program exposes a directory through a FUSE mount, renaming audio files
to a `.ogg` virtual name and transcoding them on demand through an `ffmpeg`
subprocess whose stdout is buffered in memory.  The definitions below are a
shallow embedding of the program:

* paths and names are lists of characters;
* the real filesystem is a finite association `FS` from path to stat
  information (a missing key models `os.IsNotExist`; other stat errors are not
  representable in this pure model);
* the two process-wide `sync.Map`s (`allSizes`, `allFiles`) are association
  lists with first-match lookup and prepend-on-store;
* the external collaborators are oracles: the content classifier `isAudio`
  becomes a boolean predicate parameter on the full path, and the encoder
  subprocess becomes a function from input path to the byte stream it writes
  on its stdout pipe;
* bytes are natural numbers (`make([]byte, n)` zero-fills, hence `0`).

Each function below names the Go function it embeds.
-/

namespace Codecfs

/-- Paths and file names, modeled as lists of characters. -/
abbrev Path := List Char

/-- File kind, as the Go code distinguishes it via `Mode().IsDir` and
`Mode().IsRegular`; `other` covers symlinks, devices, etc. -/
inductive FMode where
  | dir
  | regular
  | other
  deriving DecidableEq

/-- Stat information and content of one real file as visible to the program. -/
structure FSEntry where
  kind : FMode
  size : Nat
  content : List Nat
  deriving DecidableEq

/-- The real filesystem: a finite map from path to stat info and content. -/
abbrev FS := List (Path × FSEntry)

/-- First-match association lookup; mirrors `sync.Map.Load` and map indexing. -/
def lookupA {α : Type} : List (Path × α) → Path → Option α
  | [], _ => none
  | (k, v) :: rest, key => if key = k then some v else lookupA rest key

/-- `sync.Map.Store`: a later store shadows earlier bindings of the same key
under first-match lookup, i.e. overwrite semantics. -/
def store {α : Type} (m : List (Path × α)) (k : Path) (v : α) : List (Path × α) :=
  (k, v) :: m

/-- `os.Stat` / `os.Open` success on the modeled filesystem. -/
def statFS (fs : FS) (p : Path) : Option FSEntry := lookupA fs p

/-- `filepath.Join(d, name)` for a clean directory path and a separator-free
entry name, which is the only shape the program produces. -/
def pjoin (d name : Path) : Path := d ++ '/' :: name

/-- Scan loop of `filepath.Ext`: walk the name from its end toward the front,
stopping at a path separator; return the suffix from the last dot (dot
included), or the empty string when there is no dot. -/
def extLoop : List Char → List Char → List Char
  | [], _ => []
  | c :: rest, acc =>
    if c = '/' then []
    else if c = '.' then c :: acc
    else extLoop rest (c :: acc)

/-- `filepath.Ext(name)`. -/
def ext (name : Path) : Path := extLoop name.reverse []

/-- Boolean test that `pat` occurs at the head of the second list; the
occurrence test inside `strings.Replace`. -/
def beginsWith : List Char → List Char → Bool
  | [], _ => true
  | _ :: _, [] => false
  | c :: cs, d :: ds => c = d && beginsWith cs ds

/-- Scan of `strings.Replace` with `n = 1` and nonempty `old`: replace the
first (leftmost) occurrence of `old` and keep everything else. -/
def replaceFirstAux (old new : List Char) : List Char → List Char
  | [] => []
  | c :: rest =>
    if beginsWith old (c :: rest) then new ++ (c :: rest).drop old.length
    else c :: replaceFirstAux old new rest

/-- `strings.Replace(s, old, new, 1)`; with an empty `old`, the single
replacement inserts `new` before the first character of `s`. -/
def replaceFirst (s old new : List Char) : List Char :=
  if old = [] then new ++ s else replaceFirstAux old new s

/-- The renaming step of `dir.ReadDirAll`:
`strings.Replace(name, filepath.Ext(name), ".ogg", 1)`. -/
def rename (name : Path) : Path := replaceFirst name (ext name) (".ogg".data)

/-- One directory entry as returned by `Readdir`. -/
structure DirEnt where
  name : Path
  mode : FMode
  deriving DecidableEq

/-- Loop body of `dir.ReadDirAll`: entries that are neither directories nor
regular files are skipped; a regular file classified as audio is listed under
its renamed name, and a name mapping `renamed → original` is stored in
`allFiles` exactly when no real file exists at the renamed path.  The
accumulator carries the listing built so far and the `allFiles` map. -/
def readDirStep (fs : FS) (audio : Path → Bool) (d : Path)
    (acc : List (FMode × Path) × List (Path × Path)) (ent : DirEnt) :
    List (FMode × Path) × List (Path × Path) :=
  match ent.mode with
  | FMode.other => acc
  | FMode.dir => (acc.1 ++ [(FMode.dir, ent.name)], acc.2)
  | FMode.regular =>
    if audio (pjoin d ent.name) = true then
      (acc.1 ++ [(FMode.regular, rename ent.name)],
        if statFS fs (pjoin d (rename ent.name)) = none then
          store acc.2 (pjoin d (rename ent.name)) (pjoin d ent.name)
        else acc.2)
    else (acc.1 ++ [(FMode.regular, ent.name)], acc.2)

/-- `dir.ReadDirAll`: fold of the loop body over the entries `Readdir`
returned for the directory `d`; yields the listed `(type, name)` pairs and the
updated `allFiles` name-mapping. -/
def readDirAll (fs : FS) (audio : Path → Bool) (d : Path) (ents : List DirEnt)
    (files0 : List (Path × Path)) : List (FMode × Path) × List (Path × Path) :=
  List.foldl (readDirStep fs audio d) ([], files0) ents

/-- Error class surfaced to the FUSE transport by the embedded operations.
`enoent` is `fuse.ENOENT`; `eio` stands for any other propagated error, which
the pure filesystem model never produces. -/
inductive FuseErr where
  | enoent
  | eio
  deriving DecidableEq

/-- A node handed back by `dir.Lookup`.  The Go structs also thread an
`encoder` string, which no modeled logic reads (`file.Open` hardcodes the ogg
arguments), so it is omitted. -/
inductive Node where
  | dirNode (path : Path)
  | fileNode (path : Path)
  deriving DecidableEq

/-- Tail of `dir.Lookup` after name resolution: `os.Open` plus `Stat` on the
resolved path, then the switch on the file mode.  A path that is neither a
directory nor a regular file yields `fuse.ENOENT`. -/
def nodeAt (fs : FS) (p : Path) : Except FuseErr Node :=
  match statFS fs p with
  | none => Except.error FuseErr.enoent
  | some st =>
    match st.kind with
    | FMode.dir => Except.ok (Node.dirNode p)
    | FMode.regular => Except.ok (Node.fileNode p)
    | FMode.other => Except.error FuseErr.enoent

/-- `dir.Lookup(name)`: join the directory path with the name; when nothing
exists at that literal path, consult the `allFiles` mapping under the joined
path and, on a hit, continue with the mapped real path. -/
def dirLookup (fs : FS) (files : List (Path × Path)) (d name : Path) :
    Except FuseErr Node :=
  nodeAt fs
    (if statFS fs (pjoin d name) = none then
      (match lookupA files (pjoin d name) with
       | some b => b
       | none => pjoin d name)
     else pjoin d name)

/-- `file.Attr`: size resolution in priority order — the `allSizes` cache,
then the real file at the node's own path, then ten times the mapped source's
size when the path is absent but `allFiles` has a mapping (an error if the
mapped source cannot be stat'ed), else the zero value of `fuse.Attr.Size`. -/
def attrSize (sizes : List (Path × Nat)) (fs : FS) (files : List (Path × Path))
    (fname : Path) : Except Unit Nat :=
  match lookupA sizes fname with
  | some realSize => Except.ok realSize
  | none =>
    match statFS fs fname with
    | some st => Except.ok st.size
    | none =>
      match lookupA files fname with
      | some baseName =>
        match statFS fs baseName with
        | some st => Except.ok (10 * st.size)
        | none => Except.error ()
      | none => Except.ok 0

/-- State of one transcode `fileHandle`: the source name (`fh.name`), the
bytes buffered so far (`fh.buffer`), and the bytes the encoder has yet to
deliver on its stdout pipe (`fh.pipe`, modeled as the remaining stream). -/
structure Session where
  name : Path
  buffer : List Nat
  pipe : List Nat
  deriving DecidableEq

/-- Result of `file.Open`: either the passthrough `nativeFile` over an
existing real file, or a fresh `fileHandle` wrapping the encoder's stdout. -/
inductive OpenResult where
  | passthrough (path : Path) (content : List Nat)
  | session (s : Session)
  deriving DecidableEq

/-- `file.Open`: a successful `os.Open` of the node's own path yields the
passthrough handle over that file; otherwise `ffmpeg -i f.name -f ogg -` is
started and its stdout pipe is wrapped in a `fileHandle` with an empty buffer.
`encode` is the oracle giving the byte stream the encoder produces for a given
input path. -/
def openFile (fs : FS) (encode : Path → List Nat) (fname : Path) : OpenResult :=
  match statFS fs fname with
  | some st => OpenResult.passthrough fname st.content
  | none => OpenResult.session { name := fname, buffer := [], pipe := encode fname }

/-- Buffer-fill step of `fileHandle.Read`: when the buffer is shorter than
`req.Offset + req.Size`, `io.CopyN` moves exactly the missing count from the
pipe into the buffer, or less when the pipe ends first (`io.EOF` is ignored). -/
def fhFill (s : Session) (need : Nat) : Session :=
  if s.buffer.length < need then
    { name := s.name,
      buffer := s.buffer ++ s.pipe.take (need - s.buffer.length),
      pipe := s.pipe.drop (need - s.buffer.length) }
  else s

/-- The slice `fh.buffer.Bytes()[min:max]` of `fileHandle.Read`, computed on
the buffer after the fill step, with `min` and `max` clamped to the buffer
length exactly as the two `if` statements of the Go code clamp them. -/
def fhSlice (s : Session) (off sz : Nat) : List Nat :=
  ((fhFill s (off + sz)).buffer.drop
      (if (fhFill s (off + sz)).buffer.length < off
       then (fhFill s (off + sz)).buffer.length else off)).take
    ((if (fhFill s (off + sz)).buffer.length < off + sz
      then (fhFill s (off + sz)).buffer.length else off + sz)
     - (if (fhFill s (off + sz)).buffer.length < off
        then (fhFill s (off + sz)).buffer.length else off))

/-- Go's built-in `copy(dst, src)`: the written destination and the count
copied, which is the minimum of the two lengths. -/
def goCopy (dst src : List Nat) : List Nat × Nat :=
  (src.take dst.length ++ dst.drop src.length, min dst.length src.length)

/-- Everything one call of `fileHandle.Read` produces: the possibly updated
`allSizes` map, the session state after the fill, the bytes placed in
`resp.Data`, and whether the call returned `io.EOF`. -/
structure ReadResult where
  sizes : List (Path × Nat)
  session : Session
  data : List Nat
  isEOF : Bool
  deriving DecidableEq

/-- `fileHandle.Read`: fill the buffer up to `req.Offset + req.Size`, copy the
clamped slice into the zero-filled `resp.Data` of length `req.Size` (the code
never truncates `resp.Data`), and when the copied count `n` is zero, store the
buffer length into `allSizes` under `fh.name` and return `io.EOF`. -/
def fhRead (sizes : List (Path × Nat)) (s : Session) (off sz : Nat) : ReadResult :=
  if (goCopy (List.replicate sz 0) (fhSlice s off sz)).2 = 0 then
    { sizes := store sizes s.name (fhFill s (off + sz)).buffer.length,
      session := fhFill s (off + sz),
      data := (goCopy (List.replicate sz 0) (fhSlice s off sz)).1,
      isEOF := true }
  else
    { sizes := sizes,
      session := fhFill s (off + sz),
      data := (goCopy (List.replicate sz 0) (fhSlice s off sz)).1,
      isEOF := false }

/-- A sequence of `fileHandle.Read` calls against one session, threading the
`allSizes` map and the session state; each pair is `(offset, size)`. -/
def runReads (sizes : List (Path × Nat)) (s : Session) (reads : List (Nat × Nat)) :
    List (Path × Nat) × Session :=
  List.foldl
    (fun acc r => ((fhRead acc.1 acc.2 r.1 r.2).sizes, (fhRead acc.1 acc.2 r.1 r.2).session))
    (sizes, s) reads

/-- `nativeFile.Read`: a positioned `ReadAt` into a buffer of length
`req.Size`, truncated to the count actually read; `io.EOF` is translated to a
nil error, so the error component is always `none`.  The function does not
touch `allSizes`, so the map passes through unchanged. -/
def nativeRead (sizes : List (Path × Nat)) (content : List Nat) (off sz : Nat) :
    List (Path × Nat) × List Nat × Option Unit :=
  (sizes, (content.drop off).take sz, none)

/-- The listing entry `dir.ReadDirAll` emits for one `Readdir` entry: skipped
for special files, verbatim for directories and non-audio regular files, and
the renamed name for audio regular files.  This restates the name component of
`readDirStep` for use in listing characterizations. -/
def shownEntry (audio : Path → Bool) (d : Path) (ent : DirEnt) :
    Option (FMode × Path) :=
  match ent.mode with
  | FMode.other => none
  | FMode.dir => some (FMode.dir, ent.name)
  | FMode.regular =>
    some (FMode.regular,
      if audio (pjoin d ent.name) = true then rename ent.name else ent.name)

/-- The clamping `if` statements of `fileHandle.Read` compute minima. -/
lemma min_if (a b : Nat) : (if b < a then b else a) = min a b := by
  rw [Nat.min_def]
  split <;> split <;> omega

/-- A freshly stored binding is what lookup finds. -/
lemma lookupA_store {α : Type} (m : List (Path × α)) (k : Path) (v : α) :
    lookupA (store m k v) k = some v := by
  simp [store, lookupA]

/-- Lookup after a store hits either the new binding or the old map. -/
lemma lookupA_store_cases {α : Type} (m : List (Path × α)) (k' : Path) (v' : α)
    (k : Path) (v : α) (h : lookupA (store m k' v') k = some v) :
    (k = k' ∧ v = v') ∨ lookupA m k = some v := by
  by_cases hk : k = k'
  · left
    refine ⟨hk, ?_⟩
    simp [store, lookupA, hk] at h
    exact h.symm
  · right
    simpa [store, lookupA, hk] using h

/-- A range that lies inside a list is unchanged in any extension of it. -/
lemma slice_stable {l₁ l₂ : List Nat} (hp : l₁ <+: l₂) {lo hi : Nat}
    (h : hi ≤ l₁.length) :
    (l₂.drop lo).take (hi - lo) = (l₁.drop lo).take (hi - lo) := by
  obtain ⟨t, rfl⟩ := hp
  by_cases hlo : lo ≤ l₁.length
  · rw [List.drop_append_eq_append_drop, List.take_append_eq_append_take]
    have e2 : hi - lo - (List.drop lo l₁).length = 0 := by
      rw [List.length_drop]
      omega
    rw [e2]
    simp
  · have e0 : hi - lo = 0 := by omega
    simp [e0]

/-- The fill step only appends to the buffer. -/
lemma fhFill_grows (s : Session) (need : Nat) : s.buffer <+: (fhFill s need).buffer := by
  unfold fhFill
  split
  · exact ⟨s.pipe.take (need - s.buffer.length), rfl⟩
  · exact ⟨[], List.append_nil _⟩

/-- A fill that is already satisfied leaves the session unchanged. -/
lemma fhFill_of_le {s : Session} {need : Nat} (h : need ≤ s.buffer.length) :
    fhFill s need = s := by
  unfold fhFill
  rw [if_neg (by omega)]

/-- The clamped slice never exceeds the requested size. -/
lemma fhSlice_length_le (s : Session) (off sz : Nat) :
    (fhSlice s off sz).length ≤ sz := by
  unfold fhSlice
  refine le_trans (List.length_take_le _ _) ?_
  split <;> split <;> omega

/-- The copy count into a zero-filled destination of sufficient size is the
source length. -/
lemma goCopy_count (sz : Nat) (src : List Nat) (h : src.length ≤ sz) :
    (goCopy (List.replicate sz 0) src).2 = src.length := by
  simp [goCopy, Nat.min_eq_right h]

/-- The copy into a zero-filled destination keeps the source bytes in front of
the surviving zero padding. -/
lemma goCopy_bytes (sz : Nat) (src : List Nat) (h : src.length ≤ sz) :
    (goCopy (List.replicate sz 0) src).1 = src ++ List.replicate (sz - src.length) 0 := by
  simp [goCopy, List.take_of_length_le (by simpa using h), List.drop_replicate]

/-- Both branches of `fileHandle.Read` end in the post-fill session state. -/
lemma fhRead_session (sizes : List (Path × Nat)) (s : Session) (off sz : Nat) :
    (fhRead sizes s off sz).session = fhFill s (off + sz) := by
  unfold fhRead
  split <;> rfl

/-- Both branches of `fileHandle.Read` hand back the same `resp.Data`. -/
lemma fhRead_data (sizes : List (Path × Nat)) (s : Session) (off sz : Nat) :
    (fhRead sizes s off sz).data = (goCopy (List.replicate sz 0) (fhSlice s off sz)).1 := by
  unfold fhRead
  split <;> rfl

/-- A whole sequence of reads only appends to the buffer. -/
lemma runReads_grows (reads : List (Nat × Nat)) :
    ∀ (sizes : List (Path × Nat)) (s : Session),
      s.buffer <+: (runReads sizes s reads).2.buffer := by
  induction reads with
  | nil =>
    intro sizes s
    exact ⟨[], List.append_nil _⟩
  | cons r rs ih =>
    intro sizes s
    have h1 : s.buffer <+: (fhRead sizes s r.1 r.2).session.buffer := by
      rw [fhRead_session]
      exact fhFill_grows s (r.1 + r.2)
    exact h1.trans (ih (fhRead sizes s r.1 r.2).sizes (fhRead sizes s r.1 r.2).session)

/-- For an in-buffer range the clamped slice is the same in any session whose
buffer extends the original one. -/
lemma fhSlice_stable {s t : Session} (hp : s.buffer <+: t.buffer) {off sz : Nat}
    (h : off + sz ≤ s.buffer.length) :
    fhSlice t off sz = fhSlice s off sz := by
  have hs : fhFill s (off + sz) = s := fhFill_of_le h
  have hlen : s.buffer.length ≤ t.buffer.length := hp.length_le
  have ht : fhFill t (off + sz) = t := fhFill_of_le (le_trans h hlen)
  unfold fhSlice
  rw [hs, ht]
  rw [if_neg (by omega), if_neg (by omega), if_neg (by omega), if_neg (by omega)]
  exact slice_stable hp (by omega)

/-- One listing step either leaves the name-mapping untouched or stores the
mapping for a regular audio entry whose renamed path has no real file. -/
lemma readDirStep_files (fs : FS) (audio : Path → Bool) (d : Path)
    (out : List (FMode × Path)) (files0 : List (Path × Path)) (e : DirEnt) :
    (readDirStep fs audio d (out, files0) e).2 = files0 ∨
    (e.mode = FMode.regular ∧ audio (pjoin d e.name) = true ∧
      statFS fs (pjoin d (rename e.name)) = none ∧
      (readDirStep fs audio d (out, files0) e).2
        = store files0 (pjoin d (rename e.name)) (pjoin d e.name)) := by
  cases hm : e.mode
  · left
    simp [readDirStep, hm]
  · by_cases ha : audio (pjoin d e.name) = true
    · by_cases hs : statFS fs (pjoin d (rename e.name)) = none
      · right
        refine ⟨rfl, ha, hs, ?_⟩
        simp [readDirStep, hm, ha, hs]
      · left
        simp [readDirStep, hm, ha, hs]
    · left
      simp [readDirStep, hm, ha]
  · left
    simp [readDirStep, hm]

/-- Every binding in the name-mapping after a listing either predates the
listing or records a regular audio entry whose renamed path had no real file,
mapping the renamed path to the entry's original path. -/
lemma readDir_files_spec (ents : List DirEnt) :
    ∀ (fs : FS) (audio : Path → Bool) (d : Path) (out : List (FMode × Path))
      (files0 : List (Path × Path)) (k v : Path),
      lookupA (List.foldl (readDirStep fs audio d) (out, files0) ents).2 k = some v →
      lookupA files0 k = some v ∨
      ∃ ent, ent ∈ ents ∧ ent.mode = FMode.regular ∧
        audio (pjoin d ent.name) = true ∧
        statFS fs (pjoin d (rename ent.name)) = none ∧
        k = pjoin d (rename ent.name) ∧ v = pjoin d ent.name := by
  induction ents with
  | nil =>
    intro fs audio d out files0 k v h
    exact Or.inl h
  | cons e es ih =>
    intro fs audio d out files0 k v h
    rw [List.foldl_cons] at h
    rcases hstep : readDirStep fs audio d (out, files0) e with ⟨out1, files1⟩
    rw [hstep] at h
    rcases ih fs audio d out1 files1 k v h with hin | ⟨ent, hmem, hrest⟩
    · rcases readDirStep_files fs audio d out files0 e with hsame | ⟨hm, ha, hs, hst⟩
      · rw [hstep] at hsame
        dsimp only at hsame
        exact Or.inl (hsame ▸ hin)
      · rw [hstep] at hst
        dsimp only at hst
        rw [hst] at hin
        rcases lookupA_store_cases files0 _ _ k v hin with ⟨hk, hv⟩ | hold
        · exact Or.inr ⟨e, List.mem_cons_self e es, hm, ha, hs, hk, hv⟩
        · exact Or.inl hold
    · exact Or.inr ⟨ent, List.mem_cons_of_mem e hmem, hrest⟩

/-- One listing step appends exactly the entry `shownEntry` describes. -/
lemma readDirStep_out (fs : FS) (audio : Path → Bool) (d : Path)
    (out : List (FMode × Path)) (files0 : List (Path × Path)) (e : DirEnt) :
    (readDirStep fs audio d (out, files0) e).1
      = out ++ (shownEntry audio d e).toList := by
  cases hm : e.mode
  · simp [readDirStep, shownEntry, hm]
  · by_cases ha : audio (pjoin d e.name) = true <;>
      simp [readDirStep, shownEntry, hm, ha]
  · simp [readDirStep, shownEntry, hm]

/-- The listing a fold produces is the accumulator followed by one
`shownEntry` per processed entry. -/
lemma readDir_out_spec (ents : List DirEnt) :
    ∀ (fs : FS) (audio : Path → Bool) (d : Path) (out : List (FMode × Path))
      (files0 : List (Path × Path)),
      (List.foldl (readDirStep fs audio d) (out, files0) ents).1
        = out ++ List.filterMap (shownEntry audio d) ents := by
  induction ents with
  | nil =>
    intro fs audio d out files0
    simp
  | cons e es ih =>
    intro fs audio d out files0
    rw [List.foldl_cons]
    rcases hstep : readDirStep fs audio d (out, files0) e with ⟨out1, files1⟩
    have h1 : out1 = out ++ (shownEntry audio d e).toList := by
      have := readDirStep_out fs audio d out files0 e
      rw [hstep] at this
      exact this
    rw [ih fs audio d out1 files1, h1, List.filterMap_cons]
    rcases hse : shownEntry audio d e with _ | x <;> simp [List.append_assoc]

/-- C1, counterexample.  The claim says a transcode read hands back exactly
the clamped slice `buffer[lo:hi]`, possibly shorter than requested.  On a
session whose buffer holds one byte and whose pipe is exhausted, a read of
length 2 at offset 0 hands back `[1, 0]` — the slice `[1]` padded with a zero
to the full requested length — because `fileHandle.Read` never truncates
`resp.Data`. -/
theorem C1_read_slice_cex :
    (fhRead [] ⟨"n".data, [1], []⟩ 0 2).data ≠
      ((fhFill ⟨"n".data, [1], []⟩ (0 + 2)).buffer.drop
          (min 0 (fhFill ⟨"n".data, [1], []⟩ (0 + 2)).buffer.length)).take
        (min (0 + 2) (fhFill ⟨"n".data, [1], []⟩ (0 + 2)).buffer.length
          - min 0 (fhFill ⟨"n".data, [1], []⟩ (0 + 2)).buffer.length) := by
  decide

/-- C1, amended.  A transcode read hands back a byte sequence of length
exactly the requested length: the clamped slice `buffer[lo:hi]`, with
`lo = min(offset, len(buffer))` and `hi = min(offset + length, len(buffer))`
on the post-fill buffer, followed by zero padding.  The meaningful bytes — the
slice — never exceed the requested length and may be fewer, including none. -/
theorem C1_read_slice_padded (sizes : List (Path × Nat)) (s : Session) (off sz : Nat) :
    (fhRead sizes s off sz).data.length = sz ∧
    (fhRead sizes s off sz).data
      = fhSlice s off sz ++ List.replicate (sz - (fhSlice s off sz).length) 0 ∧
    fhSlice s off sz
      = ((fhFill s (off + sz)).buffer.drop
            (min off (fhFill s (off + sz)).buffer.length)).take
          (min (off + sz) (fhFill s (off + sz)).buffer.length
            - min off (fhFill s (off + sz)).buffer.length) ∧
    (fhSlice s off sz).length ≤ sz := by
  have hle := fhSlice_length_le s off sz
  have hdata : (fhRead sizes s off sz).data
      = fhSlice s off sz ++ List.replicate (sz - (fhSlice s off sz).length) 0 := by
    rw [fhRead_data, goCopy_bytes sz (fhSlice s off sz) hle]
  refine ⟨?_, hdata, ?_, hle⟩
  · rw [hdata]
    simp only [List.length_append, List.length_replicate]
    omega
  · unfold fhSlice
    rw [min_if off, min_if (off + sz)]

/-- C2.  A transcode read returns `io.EOF` exactly when the clamped slice is
empty; that read stores the post-fill buffer length into `allSizes` under the
handle's name, and a metadata query against the resulting cache returns
exactly that stored size, whatever the filesystem and name-mapping say. -/
theorem C2_eof_caches_size (sizes : List (Path × Nat)) (s : Session) (off sz : Nat)
    (fs : FS) (files : List (Path × Path)) :
    ((fhRead sizes s off sz).isEOF = true ↔ fhSlice s off sz = []) ∧
    ((fhRead sizes s off sz).isEOF = true →
      (fhRead sizes s off sz).sizes
        = store sizes s.name (fhFill s (off + sz)).buffer.length ∧
      attrSize (fhRead sizes s off sz).sizes fs files s.name
        = Except.ok (fhFill s (off + sz)).buffer.length) := by
  have hn : (goCopy (List.replicate sz 0) (fhSlice s off sz)).2
      = (fhSlice s off sz).length :=
    goCopy_count sz (fhSlice s off sz) (fhSlice_length_le s off sz)
  by_cases hc : (goCopy (List.replicate sz 0) (fhSlice s off sz)).2 = 0
  · have hslice : fhSlice s off sz = [] := by
      rw [hn] at hc
      exact List.length_eq_zero.mp hc
    have hread : fhRead sizes s off sz
        = { sizes := store sizes s.name (fhFill s (off + sz)).buffer.length,
            session := fhFill s (off + sz),
            data := (goCopy (List.replicate sz 0) (fhSlice s off sz)).1,
            isEOF := true } := by
      unfold fhRead
      rw [if_pos hc]
    refine ⟨⟨fun _ => hslice, fun _ => by rw [hread]⟩, fun _ => ⟨by rw [hread], ?_⟩⟩
    rw [hread]
    simp [attrSize, lookupA_store]
  · have hslice : fhSlice s off sz ≠ [] := by
      intro he
      rw [hn, he] at hc
      exact hc rfl
    have hread : fhRead sizes s off sz
        = { sizes := sizes,
            session := fhFill s (off + sz),
            data := (goCopy (List.replicate sz 0) (fhSlice s off sz)).1,
            isEOF := false } := by
      unfold fhRead
      rw [if_neg hc]
    constructor
    · constructor
      · intro h
        rw [hread] at h
        exact absurd h (by simp)
      · intro h
        exact absurd h hslice
    · intro h
      rw [hread] at h
      exact absurd h (by simp)

/-- C2, witness: on an exhausted session, a read of one byte at offset 0 hits
end-of-stream and the metadata query afterwards returns the cached size. -/
theorem C2_eof_caches_size_witness :
    attrSize (fhRead [] ⟨"n".data, [], []⟩ 0 1).sizes [] [] "n".data
      = Except.ok (fhFill ⟨"n".data, [], []⟩ (0 + 1)).buffer.length :=
  ((C2_eof_caches_size [] ⟨"n".data, [], []⟩ 0 1 [] []).2 (by decide)).2

/-- C3, code bug.  With a real file `/m/track.mp3` of size 7, a name mapping
`/m/track.ogg → /m/track.mp3` and an empty size cache, looking up the virtual
name yields a node whose path is the mapped real path, so its metadata is the
real source size 7 — not the fabricated `10 × 7` the claim requires; the 10×
branch of `file.Attr` is unreachable for nodes produced by `dir.Lookup`. -/
theorem C3_fabricated_size_bug :
    dirLookup [("/m/track.mp3".data, ⟨FMode.regular, 7, [9, 9]⟩)]
        [("/m/track.ogg".data, "/m/track.mp3".data)] "/m".data "track.ogg".data
      = Except.ok (Node.fileNode "/m/track.mp3".data) ∧
    attrSize [] [("/m/track.mp3".data, ⟨FMode.regular, 7, [9, 9]⟩)]
        [("/m/track.ogg".data, "/m/track.mp3".data)] "/m/track.mp3".data
      = Except.ok 7 ∧
    (7 : Nat) ≠ 10 * 7 := by
  refine ⟨rfl, rfl, by decide⟩

/-- C4, code bug.  In the same situation, opening the node that `dir.Lookup`
produced for `track.ogg` finds a real file at the node's own path — the mapped
`track.mp3` — and returns the passthrough handle over its raw bytes; the
encoder is never spawned. -/
theorem C4_open_passthrough_bug :
    dirLookup [("/m/track.mp3".data, ⟨FMode.regular, 7, [9, 9]⟩)]
        [("/m/track.ogg".data, "/m/track.mp3".data)] "/m".data "track.ogg".data
      = Except.ok (Node.fileNode "/m/track.mp3".data) ∧
    openFile [("/m/track.mp3".data, ⟨FMode.regular, 7, [9, 9]⟩)] (fun _ => [3, 4])
        "/m/track.mp3".data
      = OpenResult.passthrough "/m/track.mp3".data [9, 9] := by
  refine ⟨rfl, rfl⟩

/-- C5.  Every binding present in the name-mapping after a directory listing
either predates the listing or was created for a regular entry classified as
audio whose renamed path had no real file, and maps that renamed path to the
entry's original path; in particular a listing never registers a mapping whose
renamed path is occupied by a real file. -/
theorem C5_mapping_guard (fs : FS) (audio : Path → Bool) (d : Path)
    (ents : List DirEnt) (files0 : List (Path × Path)) (k v : Path)
    (h : lookupA (readDirAll fs audio d ents files0).2 k = some v) :
    lookupA files0 k = some v ∨
    ∃ ent, ent ∈ ents ∧ ent.mode = FMode.regular ∧
      audio (pjoin d ent.name) = true ∧
      statFS fs (pjoin d (rename ent.name)) = none ∧
      k = pjoin d (rename ent.name) ∧ v = pjoin d ent.name :=
  readDir_files_spec ents fs audio d [] files0 k v h

/-- C5, witness: a binding already in the map before an empty listing is
explained by the first disjunct. -/
theorem C5_mapping_guard_witness :
    lookupA [("k".data, "w".data)] "k".data = some "w".data ∨
    ∃ ent, ent ∈ ([] : List DirEnt) ∧ ent.mode = FMode.regular ∧
      (fun _ => true) (pjoin "/m".data ent.name) = true ∧
      statFS [] (pjoin "/m".data (rename ent.name)) = none ∧
      "k".data = pjoin "/m".data (rename ent.name) ∧
      "w".data = pjoin "/m".data ent.name :=
  C5_mapping_guard [] (fun _ => true) "/m".data [] [("k".data, "w".data)]
    "k".data "w".data (by decide)

/-- C6.  `dir.Lookup` resolves against the joined path: when nothing exists at
the literal joined path, a name-mapping hit redirects resolution to the mapped
real path, and with neither a literal file nor a mapping the lookup fails with
`fuse.ENOENT`. -/
theorem C6_lookup_fallback (fs : FS) (files : List (Path × Path)) (d name : Path)
    (h : statFS fs (pjoin d name) = none) :
    (∀ b, lookupA files (pjoin d name) = some b →
      dirLookup fs files d name = nodeAt fs b) ∧
    (lookupA files (pjoin d name) = none →
      dirLookup fs files d name = Except.error FuseErr.enoent) := by
  constructor
  · intro b hb
    simp [dirLookup, h, hb]
  · intro hb
    simp [dirLookup, nodeAt, h, hb]

/-- C6, witness: with an empty filesystem and no mapping, looking up any name
fails with ENOENT. -/
theorem C6_lookup_fallback_witness :
    dirLookup [] [] "/m".data "x".data = Except.error FuseErr.enoent :=
  (C6_lookup_fallback [] [] "/m".data "x".data rfl).2 rfl

/-- C7, counterexample.  For the audio file `x.mp3.mp3`, whose final extension
`.mp3` differs from the target, the listing shows `x.ogg.mp3`: the replacement
hits the first occurrence of the extension substring, so the shown name still
carries the original `.mp3` as its final extension. -/
theorem C7_rename_cex :
    (readDirAll [] (fun _ => true) "/m".data
        [⟨"x.mp3.mp3".data, FMode.regular⟩] []).1
      = [(FMode.regular, "x.ogg.mp3".data)] ∧
    ext "x.ogg.mp3".data = ".mp3".data ∧ ".mp3".data ≠ ".ogg".data := by
  refine ⟨by decide, by decide, by decide⟩

/-- C7, amended.  For each regular file classified as audio, the listing shows
the name with the first occurrence of its final-extension substring replaced
by `.ogg` — which replaces the final extension itself whenever that substring
occurs only once, as in `track.mp3 → track.ogg`; directories and non-audio
files are shown verbatim and special files are skipped. -/
theorem C7_rename_shown (fs : FS) (audio : Path → Bool) (d : Path)
    (ents : List DirEnt) (files0 : List (Path × Path)) :
    (readDirAll fs audio d ents files0).1
      = List.filterMap (shownEntry audio d) ents ∧
    rename "track.mp3".data = "track.ogg".data :=
  ⟨readDir_out_spec ents fs audio d [] files0, by decide⟩

/-- C8.  A passthrough read hands back the positioned slice of the real file,
never longer than requested, leaves the size cache untouched, reports no error
(end-of-file is translated away), and returns the empty sequence when the
offset is at or beyond the end of the file. -/
theorem C8_passthrough_read (sizes : List (Path × Nat)) (content : List Nat)
    (off sz : Nat) :
    (nativeRead sizes content off sz).1 = sizes ∧
    (nativeRead sizes content off sz).2.2 = none ∧
    (nativeRead sizes content off sz).2.1 = (content.drop off).take sz ∧
    (nativeRead sizes content off sz).2.1.length = min sz (content.length - off) ∧
    (content.length ≤ off → (nativeRead sizes content off sz).2.1 = []) := by
  refine ⟨rfl, rfl, rfl, ?_, ?_⟩
  · simp [nativeRead, List.length_take, List.length_drop]
  · intro h
    simp [nativeRead, List.drop_eq_nil_of_le h]

/-- C8, witness: reading past the end of a one-byte file returns no bytes. -/
theorem C8_passthrough_read_witness :
    (nativeRead [] [5] 3 2).2.1 = [] :=
  (C8_passthrough_read [] [5] 3 2).2.2.2.2 (by decide)

/-- C9.  Across any sequence of reads at arbitrary offsets and lengths, a
session's buffer only ever grows by appending, every range that was already
buffered holds the same bytes afterwards, and a read of a previously-buffered
range returns the same bytes before and after the sequence. -/
theorem C9_buffer_monotone (sizes : List (Path × Nat)) (s : Session)
    (reads : List (Nat × Nat)) :
    s.buffer <+: (runReads sizes s reads).2.buffer ∧
    (∀ lo hi, hi ≤ s.buffer.length →
      (((runReads sizes s reads).2.buffer.drop lo).take (hi - lo)
        = (s.buffer.drop lo).take (hi - lo))) ∧
    (∀ (sizes2 : List (Path × Nat)) (off sz : Nat), off + sz ≤ s.buffer.length →
      (fhRead sizes2 (runReads sizes s reads).2 off sz).data
        = (fhRead sizes2 s off sz).data) := by
  have hp := runReads_grows reads sizes s
  refine ⟨hp, fun lo hi h => slice_stable hp h, fun sizes2 off sz h => ?_⟩
  rw [fhRead_data, fhRead_data, fhSlice_stable hp h]

/-- C9, witness: after a read, the first two buffered bytes of a session that
started with buffer `[5, 6]` are still `[5, 6]`. -/
theorem C9_buffer_monotone_witness :
    (((runReads [] ⟨"n".data, [5, 6], [7]⟩ [(0, 3)]).2.buffer.drop 0).take (2 - 0)
      = (([5, 6] : List Nat).drop 0).take (2 - 0)) :=
  (C9_buffer_monotone [] ⟨"n".data, [5, 6], [7]⟩ [(0, 3)]).2.1 0 2 (by decide)

/-- C10.  A directory holding the audio file `intro.mp3` together with a real
file at the renamed path `intro.ogg` is listed with two entries both named
`intro.ogg` — the audio file is shown under the renamed name even though no
mapping is registered for it — and the name-mapping is left unchanged. -/
theorem C10_duplicate_listing (fs : FS) (audio : Path → Bool) (d : Path)
    (files0 : List (Path × Path)) (e : FSEntry)
    (ha : audio (pjoin d "intro.mp3".data) = true)
    (hs : statFS fs (pjoin d "intro.ogg".data) = some e) :
    readDirAll fs audio d
        [⟨"intro.mp3".data, FMode.regular⟩, ⟨"intro.ogg".data, FMode.regular⟩] files0
      = ([(FMode.regular, "intro.ogg".data), (FMode.regular, "intro.ogg".data)],
         files0) := by
  have hr1 : rename "intro.mp3".data = "intro.ogg".data := by decide
  have hr2 : rename "intro.ogg".data = "intro.ogg".data := by decide
  by_cases hb : audio (pjoin d "intro.ogg".data) = true
  · simp [readDirAll, readDirStep, hr1, hr2, ha, hs, hb]
  · simp [readDirAll, readDirStep, hr1, hr2, ha, hs, hb]

/-- C10, witness: the duplicate listing on a concrete filesystem that holds a
real `intro.ogg`. -/
theorem C10_duplicate_listing_witness :
    readDirAll [(pjoin "/m".data "intro.ogg".data, ⟨FMode.regular, 3, [1]⟩)]
        (fun _ => true) "/m".data
        [⟨"intro.mp3".data, FMode.regular⟩, ⟨"intro.ogg".data, FMode.regular⟩] []
      = ([(FMode.regular, "intro.ogg".data), (FMode.regular, "intro.ogg".data)],
         []) :=
  C10_duplicate_listing [(pjoin "/m".data "intro.ogg".data, ⟨FMode.regular, 3, [1]⟩)]
    (fun _ => true) "/m".data [] ⟨FMode.regular, 3, [1]⟩ rfl (by decide)

end Codecfs
